import Mathlib

/-!
Verification of the faang-in-sight backend (src/backend/app/main.py) against its
natural-language specification.  The Python source is shallowly embedded:
pandas/handler code becomes executable Lean definitions, floating-point values
are modelled by their IEEE class (finite rational payload, NaN, +Inf, -Inf),
and handler prefixes become step functions returning the first observable
outcome (error response or outbound query).
-/

/-! ## Row Sanitizer (chart_data, main.py lines 298-321)

A cell value of the warehouse result frame.  A date/datetime/Timestamp value is
modelled by the ISO-8601 string its isoformat() method renders; a float by its
IEEE class.  -/

inductive PyFloat where
  | finite (q : ℚ)
  | nan
  | inf
  | ninf
deriving DecidableEq

inductive PyVal where
  | vDate (iso : String)
  | vFloat (f : PyFloat)
  | vInt (n : Int)
  | vStr (s : String)
  | vNone
deriving DecidableEq

def PyFloat.isFinite : PyFloat → Bool
  | .finite _ => true
  | _ => false

/-- pd.isna on a scalar: true for None and float NaN, false for the other
modelled values.  -/
def pdIsna : PyVal → Bool
  | .vNone => true
  | .vFloat .nan => true
  | _ => false

/-- One cell of the per-row loop body of chart_data: dates/timestamps become
their isoformat string, floats are kept when math.isfinite and become None
otherwise, all other values become None exactly when pd.isna holds.  -/
def sanitizeVal : PyVal → PyVal
  | .vDate iso => .vStr iso
  | .vFloat f => if f.isFinite then .vFloat f else .vNone
  | v => if pdIsna v then .vNone else v

/-- The record built for one row: same columns, each value sanitized.  -/
def sanitizeRow (r : List (String × PyVal)) : List (String × PyVal) :=
  r.map (fun cv => (cv.1, sanitizeVal cv.2))

/-- The points list built by chart_data from the whole frame.  -/
def sanitizeRows (rows : List (List (String × PyVal))) : List (List (String × PyVal)) :=
  rows.map sanitizeRow

/-- A value is JSON-safe when it is not a NaN or infinite float.  -/
def valJsonSafe : PyVal → Bool
  | .vFloat f => f.isFinite
  | _ => true

/-- The sanitizer value mapping exactly as the specification words it:
date/timestamp to ISO string, non-finite float to null, finite float
unchanged, null to null, other values unchanged.  -/
def SanitizeValueSpec (v w : PyVal) : Prop :=
  (∀ s, v = .vDate s → w = .vStr s) ∧
  (∀ q, v = .vFloat (.finite q) → w = .vFloat (.finite q)) ∧
  ((v = .vFloat .nan ∨ v = .vFloat .inf ∨ v = .vFloat .ninf) → w = .vNone) ∧
  (v = .vNone → w = .vNone) ∧
  (∀ n, v = .vInt n → w = .vInt n) ∧
  (∀ s, v = .vStr s → w = .vStr s)

lemma sanitizeVal_meets_spec (v : PyVal) : SanitizeValueSpec v (sanitizeVal v) := by
  refine ⟨fun s h => ?_, fun q h => ?_, fun h => ?_, fun h => ?_, fun n h => ?_, fun s h => ?_⟩
  · subst h; rfl
  · subst h; rfl
  · rcases h with h | h | h <;> subst h <;> rfl
  · subst h; rfl
  · subst h; rfl
  · subst h; rfl

lemma sanitizeVal_jsonSafe (v : PyVal) : valJsonSafe (sanitizeVal v) = true := by
  cases v with
  | vFloat f => cases f <;> rfl
  | vDate s => rfl
  | vInt n => rfl
  | vStr s => rfl
  | vNone => rfl

lemma sanitizeVal_idem (v : PyVal) : sanitizeVal (sanitizeVal v) = sanitizeVal v := by
  cases v with
  | vFloat f => cases f <;> rfl
  | vDate s => rfl
  | vInt n => rfl
  | vStr s => rfl
  | vNone => rfl

/-- C2.  Row Sanitizer value mapping: the sanitized output has the same shape
(row count preserved, each row rebuilt column by column in place, keys kept),
every value is transformed exactly as the specification's value mapping says
(date/timestamp to its ISO-8601 string, NaN and infinities to null, finite
floats unchanged, null to null, other values pass through), and the output
contains no NaN or infinite float.  -/
theorem spec_C2_sanitizer_value_mapping (rows : List (List (String × PyVal))) :
    sanitizeRows rows = rows.map (fun r => r.map (fun cv => (cv.1, sanitizeVal cv.2))) ∧
    (sanitizeRows rows).length = rows.length ∧
    (∀ v : PyVal, SanitizeValueSpec v (sanitizeVal v)) ∧
    (∀ r ∈ sanitizeRows rows, ∀ cv ∈ r, valJsonSafe cv.2 = true) := by
  refine ⟨rfl, by simp [sanitizeRows], fun v => sanitizeVal_meets_spec v, ?_⟩
  intro r hr cv hcv
  simp only [sanitizeRows, List.mem_map] at hr
  obtain ⟨r0, -, rfl⟩ := hr
  simp only [sanitizeRow, List.mem_map] at hcv
  obtain ⟨cv0, -, rfl⟩ := hcv
  exact sanitizeVal_jsonSafe cv0.2

/-- Witness for C2 at a concrete row list holding an infinite float, a NaN,
a date and an integer.  -/
theorem spec_C2_sanitizer_value_mapping_witness :
    sanitizeRows [[("close", PyVal.vFloat .inf), ("rsi", PyVal.vFloat .nan),
                   ("d", PyVal.vDate "2024-01-02"), ("vol", PyVal.vInt 7)]] =
      [[("close", PyVal.vNone), ("rsi", PyVal.vNone),
        ("d", PyVal.vStr "2024-01-02"), ("vol", PyVal.vInt 7)]] ∧
    valJsonSafe (PyVal.vNone) = true := by
  have h := spec_C2_sanitizer_value_mapping
    [[("close", PyVal.vFloat .inf), ("rsi", PyVal.vFloat .nan),
      ("d", PyVal.vDate "2024-01-02"), ("vol", PyVal.vInt 7)]]
  refine ⟨h.1.trans (by decide), ?_⟩
  exact h.2.2.2
    [("close", PyVal.vNone), ("rsi", PyVal.vNone),
     ("d", PyVal.vStr "2024-01-02"), ("vol", PyVal.vInt 7)]
    (by decide) ("close", PyVal.vNone) (by decide)

/-- C3.  Row Sanitizer idempotence: sanitizing already-sanitized rows is a
no-op.  -/
theorem spec_C3_sanitizer_idempotent (rows : List (List (String × PyVal))) :
    sanitizeRows (sanitizeRows rows) = sanitizeRows rows := by
  induction rows with
  | nil => rfl
  | cons r rest ih =>
    simp only [sanitizeRows, List.map_cons, List.map_map] at ih ⊢
    refine congrArg₂ _ ?_ ih
    induction r with
    | nil => rfl
    | cons cv tl ihr =>
      simp only [sanitizeRow, List.map_cons, Function.comp] at ihr ⊢
      exact congrArg₂ _ (by rw [sanitizeVal_idem]) ihr

/-! ## News Filter (main.py lines 57-101 and 329-403)

Constants from the source.  The two Barron spellings use a right single
quotation mark (U+2019) and an ASCII apostrophe respectively.  -/

def REPUTED_SOURCES : List String :=
  ["Bloomberg", "Reuters", "The Wall Street Journal", "CNBC", "Financial Times",
   "MarketWatch", "Yahoo Finance",
   "Barron" ++ String.singleton (Char.ofNat 8217) ++ "s",
   "Barron" ++ String.singleton (Char.ofNat 39) ++ "s",
   "The Motley Fool", "Seeking Alpha",
   "Investor" ++ String.singleton (Char.ofNat 39) ++ "s Business Daily"]

def STOCK_KEYWORDS : List String :=
  ["stock", "shares", "earnings", "quarter", "q1", "q2", "q3", "q4",
   "guidance", "outlook", "revenue", "profit", "loss", "valuation",
   "price target", "analyst", "dividend"]

def TICKER_TO_COMPANY : List (String × String) :=
  [("AAPL", "Apple"), ("AMZN", "Amazon"), ("META", "Meta"),
   ("NFLX", "Netflix"), ("GOOGL", "Google")]

/-- Python substring test pat in text, on the character lists.  -/
def listIsSub (pat : List Char) : List Char → Bool
  | [] => pat.isEmpty
  | c :: rest => pat.isPrefixOf (c :: rest) || listIsSub pat rest

def containsSubstr (text pat : String) : Bool :=
  listIsSub pat.toList text.toList

/-- str.lower(), as the character-wise map.  -/
def strLower (s : String) : String := String.mk (s.data.map Char.toLower)

/-- str.upper(), as the character-wise map.  -/
def strUpper (s : String) : String := String.mk (s.data.map Char.toUpper)

/-- is_stock_related (main.py lines 93-101): join title and description with a
space, lowercase, require the lowercased company name and at least one keyword
as substrings.  -/
def is_stock_related (title description company : String) : Bool :=
  let text := strLower (title ++ " " ++ description)
  if !(containsSubstr text (strLower company)) then false
  else STOCK_KEYWORDS.any (fun k => containsSubstr text k)

/-- A NewsAPI article as get_news reads it; a missing field is none and the
source name is source.name when present.  -/
structure Article where
  title : Option String
  description : Option String
  sourceName : Option String
  url : Option String
  publishedAt : Option String
deriving DecidableEq

/-- The dict appended to the filtered list for one passing article.  -/
structure FilteredArticle where
  title : String
  description : String
  source : String
  url : Option String
  published_at : Option String
deriving DecidableEq

def projectArticle (a : Article) : FilteredArticle :=
  ⟨a.title.getD "", a.description.getD "", a.sourceName.getD "", a.url, a.publishedAt⟩

/-- Both continue-guards of the get_news loop combined: keep the article when
the source name is empty or allow-listed and is_stock_related holds.  -/
def articlePasses (company : String) (a : Article) : Bool :=
  let sourceName := a.sourceName.getD ""
  (sourceName == "" || REPUTED_SOURCES.contains sourceName) &&
    is_stock_related (a.title.getD "") (a.description.getD "") company

/-- The get_news filtering loop (main.py lines 366-392): walk the articles in
order, skip the ones a continue-guard rejects, append the rest, and break as
soon as the appended count reaches the limit.  count is the current length of
the filtered list.  -/
def newsFilterGo (company : String) (limit : Int) (count : Nat) :
    List Article → List FilteredArticle
  | [] => []
  | a :: rest =>
    if articlePasses company a then
      if ((count : Int) + 1) ≥ limit then [projectArticle a]
      else projectArticle a :: newsFilterGo company limit (count + 1) rest
    else newsFilterGo company limit count rest

def newsFilter (company : String) (limit : Int) (arts : List Article) :
    List FilteredArticle :=
  newsFilterGo company limit 0 arts

/-- Closed form of the loop: the passing articles in input order, truncated to
max 1 limit.  -/
lemma newsFilterGo_eq (company : String) (limit : Int) (count : Nat)
    (arts : List Article) :
    newsFilterGo company limit count arts =
      ((arts.filter (articlePasses company)).map projectArticle).take
        (max 1 (limit - count)).toNat := by
  induction arts generalizing count with
  | nil => simp [newsFilterGo]
  | cons a rest ih =>
    by_cases hp : articlePasses company a
    · by_cases hl : ((count : Int) + 1) ≥ limit
      · have h1 : (max 1 (limit - count)).toNat = 1 := by omega
        simp [newsFilterGo, hp, hl, List.filter_cons, h1]
      · have h2 : (max 1 (limit - count)).toNat =
            (max 1 (limit - (count + 1))).toNat + 1 := by omega
        simp [newsFilterGo, hp, hl, List.filter_cons, h2, ih]
    · simp [newsFilterGo, hp, List.filter_cons, ih]

lemma newsFilter_eq (company : String) (limit : Int) (arts : List Article) :
    newsFilter company limit arts =
      ((arts.filter (articlePasses company)).map projectArticle).take
        (max 1 limit).toNat := by
  simpa using newsFilterGo_eq company limit 0 arts

lemma is_stock_related_eq (title description company : String) :
    is_stock_related title description company =
      (containsSubstr (strLower (title ++ " " ++ description)) (strLower company) &&
       STOCK_KEYWORDS.any (fun k => containsSubstr (strLower (title ++ " " ++ description)) k)) := by
  unfold is_stock_related
  by_cases h : containsSubstr (strLower (title ++ " " ++ description)) (strLower company) <;>
    simp [h]

/-- C4.  News Filter membership conditions: every article retained by the
get_news loop has a source name that is empty or allow-listed, its lowercased
title-plus-description text contains the lowercased company name, and that
text contains at least one of the stock keywords.  -/
theorem spec_C4_news_filter_membership (company : String) (limit : Int)
    (arts : List Article) (fa : FilteredArticle)
    (hfa : fa ∈ newsFilter company limit arts) :
    (fa.source = "" ∨ fa.source ∈ REPUTED_SOURCES) ∧
    containsSubstr (strLower (fa.title ++ " " ++ fa.description)) (strLower company) = true ∧
    ∃ k ∈ STOCK_KEYWORDS,
      containsSubstr (strLower (fa.title ++ " " ++ fa.description)) k = true := by
  rw [newsFilter_eq] at hfa
  have hfa' := List.take_subset _ _ hfa
  obtain ⟨a, ha, rfl⟩ := List.mem_map.mp hfa'
  have hp := (List.mem_filter.mp ha).2
  unfold articlePasses at hp
  rw [is_stock_related_eq] at hp
  simp only [Bool.and_eq_true, Bool.or_eq_true, beq_iff_eq] at hp
  obtain ⟨hsrc, hname, hkey⟩ := hp
  refine ⟨?_, hname, ?_⟩
  · rcases hsrc with h | h
    · exact Or.inl h
    · exact Or.inr (by simpa using h)
  · simpa using List.any_eq_true.mp hkey

/-- Witness for C4: a Reuters article mentioning Apple and the keyword stock
passes, and the three conditions hold for it.  -/
theorem spec_C4_news_filter_membership_witness :
    ("Reuters" = "" ∨ "Reuters" ∈ REPUTED_SOURCES) ∧
    containsSubstr (strLower ("Apple stock rises" ++ " " ++ "earnings beat"))
      (strLower "Apple") = true := by
  have h := spec_C4_news_filter_membership "Apple" 10
    [⟨some "Apple stock rises", some "earnings beat", some "Reuters", none, none⟩]
    (projectArticle ⟨some "Apple stock rises", some "earnings beat", some "Reuters", none, none⟩)
    (by decide)
  exact ⟨h.1, h.2.1⟩

/-- C5 counterexample: with limit 0 and one passing article, the loop appends
the article before testing the break condition, so the output has length 1,
which is not at most the requested limit 0.  -/
theorem spec_C5_counterexample :
    (newsFilter "apple" 0
        [⟨some "apple stock", some "", some "Reuters", none, none⟩]).length = 1 ∧
    ¬(((newsFilter "apple" 0
        [⟨some "apple stock", some "", some "Reuters", none, none⟩]).length : Int) ≤ 0) := by
  constructor
  · decide
  · decide

/-- C5 amended.  The filtered output is exactly the passing articles in input
order truncated to max 1 limit: hence it preserves input order (it is a
sublist of the projected input) and its length is at most the requested limit
whenever the limit is at least 1; a limit at most 0 still lets one article
through.  -/
theorem spec_C5_amended_order_truncation (company : String) (limit : Int)
    (arts : List Article) :
    newsFilter company limit arts =
      ((arts.filter (articlePasses company)).map projectArticle).take
        (max 1 limit).toNat ∧
    List.Sublist (newsFilter company limit arts) (arts.map projectArticle) ∧
    (1 ≤ limit → ((newsFilter company limit arts).length : Int) ≤ limit) := by
  refine ⟨newsFilter_eq company limit arts, ?_, ?_⟩
  · rw [newsFilter_eq]
    exact ((List.take_sublist _ _).trans ((List.filter_sublist _).map projectArticle))
  · intro hl
    rw [newsFilter_eq]
    have h1 := List.length_take_le (max 1 limit).toNat
      ((arts.filter (articlePasses company)).map projectArticle)
    omega

/-- Witness for C5 amended at limit 2 and three passing articles.  -/
theorem spec_C5_amended_order_truncation_witness :
    ((newsFilter "apple" 2
        [⟨some "apple stock", some "", some "Reuters", none, none⟩,
         ⟨some "apple shares", some "", some "CNBC", none, none⟩,
         ⟨some "apple earnings", some "", some "Bloomberg", none, none⟩]).length : Int) ≤ 2 :=
  (spec_C5_amended_order_truncation "apple" 2
    [⟨some "apple stock", some "", some "Reuters", none, none⟩,
     ⟨some "apple shares", some "", some "CNBC", none, none⟩,
     ⟨some "apple earnings", some "", some "Bloomberg", none, none⟩]).2.2 (by decide)

/-! ## /news handler entry (main.py lines 329-364) -/

def NEWS_KEY_MISSING_DETAIL : String := "NEWS_API_KEY is not set on the server."

structure NewsEnv where
  newsApiKey : Option String

/-- Python truthiness of an optional string: None and the empty string are
falsy.  -/
def pyFalsyStr : Option String → Bool
  | none => true
  | some s => s == ""

/-- First observable step of get_news: either the 500 misconfiguration
response, or the outbound request to the news provider.  -/
inductive NewsStart where
  | httpError (status : Nat) (detail : String)
  | outboundRequest (requestUrl company : String) (pageSize : Int)
deriving DecidableEq

def get_news_start (env : NewsEnv) (ticker : String) (limit : Int) : NewsStart :=
  let symbol := strUpper ticker
  let company := (TICKER_TO_COMPANY.lookup symbol).getD symbol
  if pyFalsyStr env.newsApiKey then .httpError 500 NEWS_KEY_MISSING_DETAIL
  else .outboundRequest "https://newsapi.org/v2/everything" company (limit * 2)

/-- C9.  With the news credential unset, get_news returns the 500 response
whose detail names NEWS_API_KEY, and no outbound request is made.  -/
theorem spec_C9_news_requires_credential (env : NewsEnv) (ticker : String)
    (limit : Int) (h : env.newsApiKey = none) :
    get_news_start env ticker limit = .httpError 500 NEWS_KEY_MISSING_DETAIL ∧
    containsSubstr NEWS_KEY_MISSING_DETAIL "NEWS_API_KEY" = true ∧
    ∀ u c p, get_news_start env ticker limit ≠ .outboundRequest u c p := by
  have he : get_news_start env ticker limit = .httpError 500 NEWS_KEY_MISSING_DETAIL := by
    simp [get_news_start, h, pyFalsyStr]
  refine ⟨he, by decide, ?_⟩
  intro u c p hcon
  rw [he] at hcon
  exact NewsStart.noConfusion hcon

/-- Witness for C9 at a concrete unset environment.  -/
theorem spec_C9_news_requires_credential_witness :
    get_news_start ⟨none⟩ "AAPL" 10 = .httpError 500 NEWS_KEY_MISSING_DETAIL :=
  (spec_C9_news_requires_credential ⟨none⟩ "AAPL" 10 rfl).1

/-! ## compare_stocks and faang_dashboard entry (main.py lines 529-551, 685-690) -/

def OPENAI_KEY_MISSING_DETAIL : String :=
  "OPENAI_API_KEY environment variable is not set."

def SAME_TICKER_DETAIL : String := "Please provide two different tickers."

/-- days = max(7, min(req.days, 365)) at main.py line 551.  -/
def clampDaysCompare (d : Int) : Int := max 7 (min d 365)

/-- days = max(7, min(days, 180)) at main.py line 690.  -/
def clampDaysDashboard (d : Int) : Int := max 7 (min d 180)

/-- The process environment the handler prefix reads: openai_client is None
exactly when OPENAI_API_KEY is unset or empty.  -/
structure GenEnv where
  openaiApiKey : Option String

/-- First observable step of compare_stocks: the 500 misconfiguration
response, the 400 identical-ticker response, or the warehouse query with its
bound parameters.  -/
inductive CompareStep where
  | errMisconfigured (status : Nat) (detail : String)
  | errSameTicker (status : Nat) (detail : String)
  | warehouseQuery (t1 t2 : String) (days : Int)
deriving DecidableEq

/-- compare_stocks up to the BigQuery call (main.py lines 529-577): the
openai_client None check, then uppercasing and the identical-ticker check,
then the day clamp and the parameterized query.  -/
def compare_stocks_start (env : GenEnv) (ticker1 ticker2 : String) (days : Int) :
    CompareStep :=
  if pyFalsyStr env.openaiApiKey then .errMisconfigured 500 OPENAI_KEY_MISSING_DETAIL
  else
    let t1 := strUpper ticker1
    let t2 := strUpper ticker2
    if t1 = t2 then .errSameTicker 400 SAME_TICKER_DETAIL
    else .warehouseQuery t1 t2 (clampDaysCompare days)

/-- First observable step of faang_dashboard: its warehouse query.  -/
inductive DashStep where
  | warehouseQuery (days : Int) (tickers : List String)
deriving DecidableEq

def faang_dashboard_start (days : Int) : DashStep :=
  .warehouseQuery (clampDaysDashboard days) ["AAPL", "AMZN", "META", "NFLX", "GOOGL"]

/-- C6.  Day-window clamping: the effective compare-stocks window is
max(7, min(days, 365)) and the dashboard window is max(7, min(days, 180));
in-range values pass unchanged, out-of-range values are clamped to the nearer
bound, days=1000 becomes 365 on compare-stocks, and the warehouse queries of
both handlers are issued with exactly these clamped values.  -/
theorem spec_C6_day_window_clamping (d : Int) :
    clampDaysCompare d = max 7 (min d 365) ∧
    clampDaysDashboard d = max 7 (min d 180) ∧
    (7 ≤ d → d ≤ 365 → clampDaysCompare d = d) ∧
    (365 < d → clampDaysCompare d = 365) ∧
    (d < 7 → clampDaysCompare d = 7) ∧
    (7 ≤ d → d ≤ 180 → clampDaysDashboard d = d) ∧
    (180 < d → clampDaysDashboard d = 180) ∧
    (d < 7 → clampDaysDashboard d = 7) ∧
    clampDaysCompare 1000 = 365 ∧
    (∀ env t1 t2 a b dd, compare_stocks_start env t1 t2 d = .warehouseQuery a b dd →
      dd = max 7 (min d 365)) ∧
    (∀ dd ts, faang_dashboard_start d = .warehouseQuery dd ts →
      dd = max 7 (min d 180)) := by
  refine ⟨rfl, rfl, ?_, ?_, ?_, ?_, ?_, ?_, by decide, ?_, ?_⟩
  · intro h1 h2; simp only [clampDaysCompare]; omega
  · intro h; simp only [clampDaysCompare]; omega
  · intro h; simp only [clampDaysCompare]; omega
  · intro h1 h2; simp only [clampDaysDashboard]; omega
  · intro h; simp only [clampDaysDashboard]; omega
  · intro h; simp only [clampDaysDashboard]; omega
  · intro env t1 t2 a b dd h
    unfold compare_stocks_start at h
    by_cases hk : pyFalsyStr env.openaiApiKey
    · simp [hk] at h
    · simp only [hk, if_false, Bool.false_eq_true] at h
      by_cases ht : strUpper t1 = strUpper t2
      · simp [ht] at h
      · simp only [ht, if_false] at h
        injection h with h1 h2 h3
        exact h3.symm
  · intro dd ts h
    injection h with h1 h2
    exact h1.symm

/-- Witness for C6 at days = 1000.  -/
theorem spec_C6_day_window_clamping_witness :
    clampDaysCompare 1000 = 365 ∧ clampDaysDashboard 1000 = 180 :=
  ⟨(spec_C6_day_window_clamping 1000).2.2.2.1 (by decide),
   (spec_C6_day_window_clamping 1000).2.2.2.2.2.2.1 (by decide)⟩

/-- C7 counterexample: with the generation credential unset and the two
tickers both AAPL, compare_stocks returns the 500 misconfiguration response,
not the 400 identical-ticker response the claim promises for every such
request.  -/
theorem spec_C7_counterexample :
    compare_stocks_start ⟨none⟩ "AAPL" "AAPL" 60 =
      .errMisconfigured 500 OPENAI_KEY_MISSING_DETAIL ∧
    compare_stocks_start ⟨none⟩ "AAPL" "AAPL" 60 ≠
      .errSameTicker 400 SAME_TICKER_DETAIL := by
  constructor
  · decide
  · decide

/-- C7 amended.  Provided the generation credential is configured (non-empty),
every compare-stocks request whose tickers are equal after uppercasing gets
the 400 invalid-input response, and no warehouse query is issued.  -/
theorem spec_C7_same_ticker_rejected (env : GenEnv) (ticker1 ticker2 : String)
    (days : Int) (hk : pyFalsyStr env.openaiApiKey = false)
    (ht : strUpper ticker1 = strUpper ticker2) :
    compare_stocks_start env ticker1 ticker2 days =
      .errSameTicker 400 SAME_TICKER_DETAIL ∧
    ∀ a b dd, compare_stocks_start env ticker1 ticker2 days ≠
      .warehouseQuery a b dd := by
  have he : compare_stocks_start env ticker1 ticker2 days =
      .errSameTicker 400 SAME_TICKER_DETAIL := by
    unfold compare_stocks_start
    simp [hk, ht]
  refine ⟨he, ?_⟩
  intro a b dd hcon
  rw [he] at hcon
  exact CompareStep.noConfusion hcon

/-- Witness for C7 amended: a configured key with tickers aapl and AAPL.  -/
theorem spec_C7_same_ticker_rejected_witness :
    compare_stocks_start ⟨some "sk-test"⟩ "aapl" "AAPL" 60 =
      .errSameTicker 400 SAME_TICKER_DETAIL :=
  (spec_C7_same_ticker_rejected ⟨some "sk-test"⟩ "aapl" "AAPL" 60
    (by decide) (by decide)).1

/-- C10.  The missing-credential check precedes the identical-ticker check:
with the generation credential unset the handler answers 500 even for equal
tickers, and the 400 identical-ticker response implies the credential was
configured.  -/
theorem spec_C10_credential_check_first (env : GenEnv) (ticker1 ticker2 : String)
    (days : Int) :
    (pyFalsyStr env.openaiApiKey = true →
      compare_stocks_start env ticker1 ticker2 days =
        .errMisconfigured 500 OPENAI_KEY_MISSING_DETAIL) ∧
    (compare_stocks_start env ticker1 ticker2 days =
        .errSameTicker 400 SAME_TICKER_DETAIL →
      pyFalsyStr env.openaiApiKey = false) := by
  constructor
  · intro hk
    unfold compare_stocks_start
    simp [hk]
  · intro he
    by_cases hk : pyFalsyStr env.openaiApiKey
    · exfalso
      unfold compare_stocks_start at he
      rw [if_pos hk] at he
      exact CompareStep.noConfusion he
    · simpa using hk

/-- Witness for C10 with an unset key and equal tickers.  -/
theorem spec_C10_credential_check_first_witness :
    compare_stocks_start ⟨none⟩ "AAPL" "AAPL" 60 =
      .errMisconfigured 500 OPENAI_KEY_MISSING_DETAIL :=
  (spec_C10_credential_check_first ⟨none⟩ "AAPL" "AAPL" 60).1 (by decide)

/-! ## Aggregator (compare_stocks lines 589-601, faang_dashboard lines 720-731)

df.sort_values("trade_date", ascending=False) uses the pandas default
kind=quicksort, which pandas does not document as stable, so the program does
not specify how rows with equal trade_date are arranged.  The embedding
therefore treats the sorted frame as an arbitrary date-descending permutation
of the input: the C1 theorem below is quantified over every such permutation,
and sortDateDesc is only the executable representative used by the executable
aggregators; no aggregation theorem depends on which arrangement of equal
dates it produces.  groupby("ticker") keeps its default sort=True, which
lists the distinct group keys in ascending order, and the named "first"
aggregation takes the first non-null entry of each column within the group.
Cell values of numeric columns after the inf/NaN cleaning are Option
rationals.  -/

structure MarketRow where
  ticker : String
  trade_date : Int
  close : Option ℚ
  daily_return : Option ℚ
  cumulative_return : Option ℚ
  rsi_14 : Option ℚ
  ma_20 : Option ℚ
  ma_50 : Option ℚ
deriving DecidableEq

def insertDateDesc (r : MarketRow) : List MarketRow → List MarketRow
  | [] => [r]
  | x :: xs =>
    if x.trade_date ≤ r.trade_date then r :: x :: xs else x :: insertDateDesc r xs

/-- One concrete date-descending arrangement of the rows (an insertion
sort), the executable representative of the unspecified sort_values order.  -/
def sortDateDesc : List MarketRow → List MarketRow
  | [] => []
  | r :: rs => insertDateDesc r (sortDateDesc rs)

/-- Distinct values in order of first appearance, with an accumulator of the
values already seen.  -/
def dedupKeysAux (seen : List String) : List String → List String
  | [] => []
  | x :: xs =>
    if seen.contains x then dedupKeysAux seen xs
    else x :: dedupKeysAux (x :: seen) xs

/-- Distinct values in order of first appearance.  -/
def dedupKeys (l : List String) : List String := dedupKeysAux [] l

def insertStrAsc (s : String) : List String → List String
  | [] => [s]
  | x :: xs => if s.data < x.data then s :: x :: xs else x :: insertStrAsc s xs

/-- Ascending sort of the (distinct) group keys, as pandas groupby sort=True
produces them.  -/
def sortStrAsc : List String → List String
  | [] => []
  | s :: rest => insertStrAsc s (sortStrAsc rest)


lemma insertDateDesc_cons (r x : MarketRow) (xs : List MarketRow) :
    insertDateDesc r (x :: xs) =
      if x.trade_date ≤ r.trade_date then r :: x :: xs else x :: insertDateDesc r xs :=
  rfl

lemma insertDateDesc_perm (r : MarketRow) (l : List MarketRow) :
    List.Perm (insertDateDesc r l) (r :: l) := by
  induction l with
  | nil => exact List.Perm.refl _
  | cons x xs ih =>
    rw [insertDateDesc_cons]
    by_cases h : x.trade_date ≤ r.trade_date
    · rw [if_pos h]
    · rw [if_neg h]
      exact (ih.cons x).trans (List.Perm.swap r x xs)

lemma sortDateDesc_perm (l : List MarketRow) : List.Perm (sortDateDesc l) l := by
  induction l with
  | nil => exact List.Perm.refl _
  | cons r rs ih => exact (insertDateDesc_perm r (sortDateDesc rs)).trans (ih.cons r)

lemma mem_insertDateDesc {a r : MarketRow} {l : List MarketRow} :
    a ∈ insertDateDesc r l ↔ a = r ∨ a ∈ l := by
  rw [(insertDateDesc_perm r l).mem_iff, List.mem_cons]

lemma pairwise_insertDateDesc {r : MarketRow} {l : List MarketRow}
    (hl : l.Pairwise (fun a b => b.trade_date ≤ a.trade_date)) :
    (insertDateDesc r l).Pairwise (fun a b => b.trade_date ≤ a.trade_date) := by
  induction l with
  | nil => simp [insertDateDesc]
  | cons x xs ih =>
    rcases List.pairwise_cons.mp hl with ⟨hx, hxs⟩
    rw [insertDateDesc_cons]
    by_cases h : x.trade_date ≤ r.trade_date
    · rw [if_pos h]
      refine List.pairwise_cons.mpr ⟨?_, hl⟩
      intro b hb
      rcases List.mem_cons.mp hb with rfl | hb
      · exact h
      · exact le_trans (hx b hb) h
    · rw [if_neg h]
      refine List.pairwise_cons.mpr ⟨?_, ih hxs⟩
      intro b hb
      rcases mem_insertDateDesc.mp hb with rfl | hb
      · exact le_of_lt (lt_of_not_le h)
      · exact hx b hb

lemma sortDateDesc_pairwise (l : List MarketRow) :
    (sortDateDesc l).Pairwise (fun a b => b.trade_date ≤ a.trade_date) := by
  induction l with
  | nil => simp [sortDateDesc]
  | cons r rs ih => exact pairwise_insertDateDesc ih

lemma mem_dedupKeysAux {a : String} :
    ∀ {l seen : List String}, a ∈ dedupKeysAux seen l ↔ (a ∈ l ∧ a ∉ seen) := by
  intro l
  induction l with
  | nil => intro seen; simp [dedupKeysAux]
  | cons x xs ih =>
    intro seen
    unfold dedupKeysAux
    by_cases hx : seen.contains x
    · have hxs : x ∈ seen := by simpa using hx
      rw [if_pos hx, ih]
      constructor
      · rintro ⟨h1, h2⟩
        exact ⟨List.mem_cons_of_mem x h1, h2⟩
      · rintro ⟨h1, h2⟩
        rcases List.mem_cons.mp h1 with rfl | h1
        · exact absurd hxs h2
        · exact ⟨h1, h2⟩
    · rw [if_neg hx, List.mem_cons, ih]
      constructor
      · rintro (rfl | ⟨h1, h2⟩)
        · exact ⟨List.mem_cons_self _ _, by simpa using hx⟩
        · have h3 : a ∉ seen := fun hs => h2 (List.mem_cons_of_mem x hs)
          exact ⟨List.mem_cons_of_mem x h1, h3⟩
      · rintro ⟨h1, h2⟩
        by_cases hax : a = x
        · exact Or.inl hax
        · refine Or.inr ⟨(List.mem_cons.mp h1).resolve_left hax, ?_⟩
          intro hc
          rcases List.mem_cons.mp hc with h | h
          · exact hax h
          · exact h2 h

lemma mem_dedupKeys {a : String} {l : List String} : a ∈ dedupKeys l ↔ a ∈ l := by
  unfold dedupKeys
  rw [mem_dedupKeysAux]
  simp

lemma nodup_dedupKeysAux : ∀ (l seen : List String), (dedupKeysAux seen l).Nodup := by
  intro l
  induction l with
  | nil => intro seen; simp [dedupKeysAux]
  | cons x xs ih =>
    intro seen
    unfold dedupKeysAux
    by_cases hx : seen.contains x
    · rw [if_pos hx]
      exact ih seen
    · rw [if_neg hx]
      refine List.nodup_cons.mpr ⟨?_, ih (x :: seen)⟩
      intro hmem
      exact (mem_dedupKeysAux.mp hmem).2 (List.mem_cons_self x seen)

lemma nodup_dedupKeys (l : List String) : (dedupKeys l).Nodup :=
  nodup_dedupKeysAux l []

lemma insertStrAsc_perm (s : String) (l : List String) :
    List.Perm (insertStrAsc s l) (s :: l) := by
  induction l with
  | nil => exact List.Perm.refl _
  | cons x xs ih =>
    show List.Perm (if s.data < x.data then s :: x :: xs else x :: insertStrAsc s xs) _
    by_cases h : s.data < x.data
    · rw [if_pos h]
    · rw [if_neg h]
      exact (ih.cons x).trans (List.Perm.swap s x xs)

lemma sortStrAsc_perm (l : List String) : List.Perm (sortStrAsc l) l := by
  induction l with
  | nil => exact List.Perm.refl _
  | cons s rest ih => exact (insertStrAsc_perm s (sortStrAsc rest)).trans (ih.cons s)

lemma mem_insertStrAsc {a s : String} {l : List String} :
    a ∈ insertStrAsc s l ↔ a = s ∨ a ∈ l := by
  rw [(insertStrAsc_perm s l).mem_iff, List.mem_cons]

lemma pairwise_insertStrAsc {s : String} {l : List String}
    (hl : l.Pairwise (fun a b => a < b)) (hs : s ∉ l) :
    (insertStrAsc s l).Pairwise (fun a b => a < b) := by
  induction l with
  | nil => simp [insertStrAsc]
  | cons x xs ih =>
    rcases List.pairwise_cons.mp hl with ⟨hx, hxs⟩
    have hsx : s ≠ x := fun he => hs (he ▸ List.mem_cons_self x xs)
    have hsxs : s ∉ xs := fun hm => hs (List.mem_cons_of_mem x hm)
    show ((if s.data < x.data then s :: x :: xs else x :: insertStrAsc s xs)).Pairwise _
    by_cases h : s.data < x.data
    · rw [if_pos h]
      have hsxlt : s < x := String.lt_iff_toList_lt.mpr h
      refine List.pairwise_cons.mpr ⟨?_, hl⟩
      intro b hb
      rcases List.mem_cons.mp hb with rfl | hb
      · exact hsxlt
      · exact lt_trans hsxlt (hx b hb)
    · rw [if_neg h]
      have hns : ¬s < x := fun hc => h (String.lt_iff_toList_lt.mp hc)
      refine List.pairwise_cons.mpr ⟨?_, ih hxs hsxs⟩
      intro b hb
      rcases mem_insertStrAsc.mp hb with rfl | hb
      · exact lt_of_le_of_ne (not_lt.mp hns) (Ne.symm hsx)
      · exact hx b hb

lemma pairwise_sortStrAsc {l : List String} (hl : l.Nodup) :
    (sortStrAsc l).Pairwise (fun a b => a < b) := by
  induction l with
  | nil => simp [sortStrAsc]
  | cons s rest ih =>
    rcases List.nodup_cons.mp hl with ⟨hs, hrest⟩
    exact pairwise_insertStrAsc (ih hrest)
      (fun hm => hs ((sortStrAsc_perm rest).mem_iff.mp hm))

lemma nodup_sortStrAsc {l : List String} (hl : l.Nodup) : (sortStrAsc l).Nodup :=
  ((sortStrAsc_perm l).nodup_iff).mpr hl

/-- GroupBy.first on one column: the first non-null entry of the column within
the group rows, in the given order.  -/
def colFirst (f : MarketRow → Option ℚ) (l : List MarketRow) : Option ℚ :=
  (l.filterMap f).head?

/-- GroupBy.mean on one column: the mean of the non-null entries, null if the
column is all-null in the group.  -/
def colMean (f : MarketRow → Option ℚ) (l : List MarketRow) : Option ℚ :=
  let vs := l.filterMap f
  if vs.length = 0 then none else some (vs.sum / vs.length)

/-- The rows of one ticker's group, in the order of the given frame.  -/
def groupOf (t : String) (l : List MarketRow) : List MarketRow :=
  l.filter (fun r => r.ticker == t)

/-- One output row of the faang_dashboard aggregation (lines 720-731).  -/
structure DashRow where
  ticker : String
  last_date : Option Int
  last_close : Option ℚ
  last_daily_return : Option ℚ
  last_cumulative_return : Option ℚ
  last_rsi : Option ℚ
deriving DecidableEq

def dashSummaryOf (t : String) (sorted : List MarketRow) : DashRow :=
  let g := groupOf t sorted
  ⟨t, (g.map (fun r => r.trade_date)).head?, colFirst (fun r => r.close) g,
   colFirst (fun r => r.daily_return) g, colFirst (fun r => r.cumulative_return) g,
   colFirst (fun r => r.rsi_14) g⟩

/-- The distinct tickers of the frame in ascending order, as groupby with its
default sort=True produces the group keys.  -/
def groupKeys (l : List MarketRow) : List String :=
  sortStrAsc (dedupKeys (l.map (fun r => r.ticker)))

/-- faang_dashboard aggregation: sort the frame by trade_date descending, then
one DashRow per group key.  -/
def faangLatest (rows : List MarketRow) : List DashRow :=
  let sorted := sortDateDesc rows
  (groupKeys sorted).map (fun t => dashSummaryOf t sorted)

/-- One output row of the compare_stocks aggregation (lines 589-601).  -/
structure CompareSummaryRow where
  ticker : String
  last_close : Option ℚ
  avg_daily_return : Option ℚ
  last_cumulative_return : Option ℚ
  last_rsi : Option ℚ
  last_ma20 : Option ℚ
  last_ma50 : Option ℚ
deriving DecidableEq

def compareSummaryOf (t : String) (sorted : List MarketRow) : CompareSummaryRow :=
  let g := groupOf t sorted
  ⟨t, colFirst (fun r => r.close) g, colMean (fun r => r.daily_return) g,
   colFirst (fun r => r.cumulative_return) g, colFirst (fun r => r.rsi_14) g,
   colFirst (fun r => r.ma_20) g, colFirst (fun r => r.ma_50) g⟩

/-- compare_stocks aggregation: same sorted frame, different field mapping.  -/
def compareSummary (rows : List MarketRow) : List CompareSummaryRow :=
  let sorted := sortDateDesc rows
  (groupKeys sorted).map (fun t => compareSummaryOf t sorted)

/-- A date-descending arrangement of the input rows: any permutation of the
input sorted by trade_date descending.  Every output that
df.sort_values("trade_date", ascending=False) may produce is such an
arrangement, whatever its unstable quicksort does with equal dates.  -/
def DateSortedPermOf (s rows : List MarketRow) : Prop :=
  List.Perm s rows ∧ s.Pairwise (fun a b => b.trade_date ≤ a.trade_date)

/-- Specification of one aggregated last_* value w for the ticker t group of
rows: w is null exactly when the column is null throughout the group; any
non-null w is the column's value at a group row of maximal trade_date among
the group rows where the column is non-null; and whenever that maximal-date
non-null row is unique, w is exactly its value.  Which of several tied
maximal-date rows supplies the value is deliberately left open, because the
program's sort does not specify it.  -/
def FieldSpec (f : MarketRow → Option ℚ) (t : String) (rows : List MarketRow)
    (w : Option ℚ) : Prop :=
  (w = none ↔ ∀ r ∈ rows, r.ticker = t → f r = none) ∧
  (∀ v, w = some v → ∃ r ∈ rows, r.ticker = t ∧ f r = some v ∧
    ∀ r2 ∈ rows, r2.ticker = t → f r2 ≠ none → r2.trade_date ≤ r.trade_date) ∧
  (∀ r ∈ rows, r.ticker = t → f r ≠ none →
    (∀ r2 ∈ rows, r2.ticker = t → f r2 ≠ none → r2 ≠ r →
      r2.trade_date < r.trade_date) →
    w = f r)

/-- Every last_* field of one dashboard output row meets FieldSpec, and
last_date is the maximum trade_date of the ticker's group.  -/
def DashFieldsSpec (rows : List MarketRow) (o : DashRow) : Prop :=
  FieldSpec (fun r => r.close) o.ticker rows o.last_close ∧
  FieldSpec (fun r => r.daily_return) o.ticker rows o.last_daily_return ∧
  FieldSpec (fun r => r.cumulative_return) o.ticker rows o.last_cumulative_return ∧
  FieldSpec (fun r => r.rsi_14) o.ticker rows o.last_rsi ∧
  ∃ d, o.last_date = some d ∧
    (∃ r ∈ rows, r.ticker = o.ticker ∧ r.trade_date = d) ∧
    ∀ r2 ∈ rows, r2.ticker = o.ticker → r2.trade_date ≤ d

/-- Every last_* field of one compare-stocks output row meets FieldSpec.  -/
def CompareFieldsSpec (rows : List MarketRow) (o : CompareSummaryRow) : Prop :=
  FieldSpec (fun r => r.close) o.ticker rows o.last_close ∧
  FieldSpec (fun r => r.cumulative_return) o.ticker rows o.last_cumulative_return ∧
  FieldSpec (fun r => r.rsi_14) o.ticker rows o.last_rsi ∧
  FieldSpec (fun r => r.ma_20) o.ticker rows o.last_ma20 ∧
  FieldSpec (fun r => r.ma_50) o.ticker rows o.last_ma50

/-- The order of first appearance of the tickers in the date-descending sorted
input, the order C8 claims for the output.  -/
def firstAppearanceKeys (rows : List MarketRow) : List String :=
  dedupKeys ((sortDateDesc rows).map (fun r => r.ticker))

/-- In a date-descending sorted list, the first row with a non-null field
value supplies the head of the filterMap, and every row with the field
non-null has date at most that row's date.  -/
lemma head_filterMap_sorted (f : MarketRow → Option ℚ) :
    ∀ (s : List MarketRow),
      s.Pairwise (fun a b => b.trade_date ≤ a.trade_date) →
      ∀ v, (s.filterMap f).head? = some v →
      ∃ r ∈ s, f r = some v ∧
        ∀ r2 ∈ s, f r2 ≠ none → r2.trade_date ≤ r.trade_date := by
  intro s
  induction s with
  | nil => intro _ v hv; simp [List.filterMap] at hv
  | cons a s' ih =>
    intro hp v hv
    rcases List.pairwise_cons.mp hp with ⟨ha, hs'⟩
    cases hfa : f a with
    | some w =>
      rw [List.filterMap_cons_some hfa] at hv
      simp only [List.head?_cons, Option.some.injEq] at hv
      subst hv
      refine ⟨a, List.mem_cons_self a s', hfa, ?_⟩
      intro r2 hr2 _
      rcases List.mem_cons.mp hr2 with rfl | hr2
      · exact le_refl _
      · exact ha r2 hr2
    | none =>
      rw [List.filterMap_cons_none hfa] at hv
      obtain ⟨r, hr, hfr, hbound⟩ := ih hs' v hv
      refine ⟨r, List.mem_cons_of_mem a hr, hfr, ?_⟩
      intro r2 hr2 hne
      rcases List.mem_cons.mp hr2 with rfl | hr2
      · exact absurd hfa hne
      · exact hbound r2 hr2 hne

lemma faangLatest_map_ticker (rows : List MarketRow) :
    (faangLatest rows).map (fun o => o.ticker) = groupKeys (sortDateDesc rows) := by
  unfold faangLatest
  rw [List.map_map]
  refine (List.map_congr_left ?_).trans (List.map_id _)
  intro t ht
  rfl

lemma compareSummary_map_ticker (rows : List MarketRow) :
    (compareSummary rows).map (fun o => o.ticker) = groupKeys (sortDateDesc rows) := by
  unfold compareSummary
  rw [List.map_map]
  refine (List.map_congr_left ?_).trans (List.map_id _)
  intro t ht
  rfl

lemma mem_groupKeys {t : String} {l : List MarketRow} :
    t ∈ groupKeys l ↔ t ∈ l.map (fun r => r.ticker) := by
  unfold groupKeys
  rw [(sortStrAsc_perm _).mem_iff, mem_dedupKeys]

lemma mem_map_ticker_sortDateDesc {t : String} {rows : List MarketRow} :
    t ∈ (sortDateDesc rows).map (fun r => r.ticker) ↔
      t ∈ rows.map (fun r => r.ticker) :=
  ((sortDateDesc_perm rows).map _).mem_iff

lemma nodup_groupKeys (l : List MarketRow) : (groupKeys l).Nodup :=
  nodup_sortStrAsc (nodup_dedupKeys _)

lemma mem_groupKeys_perm {t : String} {rows s : List MarketRow}
    (hperm : List.Perm s rows) :
    t ∈ groupKeys s ↔ t ∈ rows.map (fun r => r.ticker) := by
  rw [mem_groupKeys]
  exact (hperm.map _).mem_iff

lemma length_groupKeys_perm (rows s : List MarketRow)
    (hperm : List.Perm s rows) :
    (groupKeys s).length = (rows.map (fun r => r.ticker)).dedup.length := by
  have h1 : (groupKeys s).length =
      (dedupKeys (s.map (fun r => r.ticker))).length :=
    (sortStrAsc_perm _).length_eq
  rw [h1]
  have hp2 : List.Perm (dedupKeys (s.map (fun r => r.ticker)))
      ((rows.map (fun r => r.ticker)).dedup) := by
    apply List.perm_of_nodup_nodup_toFinset_eq (nodup_dedupKeys _) (List.nodup_dedup _)
    ext a
    simp only [List.mem_toFinset, mem_dedupKeys, List.mem_dedup]
    exact (hperm.map _).mem_iff
  exact hp2.length_eq

lemma dash_map_ticker (s : List MarketRow) (ks : List String) :
    ((ks.map (fun k => dashSummaryOf k s)).map (fun o => o.ticker)) = ks := by
  rw [List.map_map]
  refine (List.map_congr_left ?_).trans (List.map_id _)
  intro k hk
  rfl

lemma compare_map_ticker (s : List MarketRow) (ks : List String) :
    ((ks.map (fun k => compareSummaryOf k s)).map (fun o => o.ticker)) = ks := by
  rw [List.map_map]
  refine (List.map_congr_left ?_).trans (List.map_id _)
  intro k hk
  rfl

/-- In a date-descending sorted group, if some row r has the field non-null
and every other non-null row is strictly older, the first non-null entry is
exactly r's value, whatever the arrangement of other equal-date rows.  -/
lemma head_filterMap_unique_max (f : MarketRow → Option ℚ)
    (g : List MarketRow)
    (hsort : g.Pairwise (fun a b => b.trade_date ≤ a.trade_date))
    (r : MarketRow) (hr : r ∈ g) (hfr : f r ≠ none)
    (huni : ∀ r2 ∈ g, f r2 ≠ none → r2 ≠ r → r2.trade_date < r.trade_date) :
    (g.filterMap f).head? = f r := by
  have hnil : g.filterMap f ≠ [] := by
    cases hw : f r with
    | none => exact absurd hw hfr
    | some w =>
      intro hcon
      have hwmem : w ∈ g.filterMap f := List.mem_filterMap.mpr ⟨r, hr, hw⟩
      rw [hcon] at hwmem
      cases hwmem
  cases hfm : g.filterMap f with
  | nil => exact absurd hfm hnil
  | cons a tl =>
    have hhead : (g.filterMap f).head? = some a := by rw [hfm]; rfl
    obtain ⟨r2, hr2, hfr2, hbound⟩ := head_filterMap_sorted f g hsort a hhead
    show some a = f r
    by_cases heq : r2 = r
    · rw [← hfr2, heq]
    · have h1 : r2.trade_date < r.trade_date :=
        huni r2 hr2 (by rw [hfr2]; exact Option.some_ne_none a) heq
      have h2 : r.trade_date ≤ r2.trade_date := hbound r hr hfr
      omega

/-- The first aggregation of one column over one ticker's group meets
FieldSpec for every date-descending arrangement s of the input.  -/
lemma fieldSpec_colFirst (f : MarketRow → Option ℚ) (t : String)
    (rows s : List MarketRow) (hperm : List.Perm s rows)
    (hsort : s.Pairwise (fun a b => b.trade_date ≤ a.trade_date)) :
    FieldSpec f t rows (colFirst f (groupOf t s)) := by
  have hpg : List.Perm (groupOf t s) (groupOf t rows) := hperm.filter _
  have hsg : (groupOf t s).Pairwise (fun a b => b.trade_date ≤ a.trade_date) :=
    List.Pairwise.sublist (List.filter_sublist _) hsort
  have hmem_g : ∀ x, x ∈ groupOf t s ↔ (x ∈ rows ∧ x.ticker = t) := by
    intro x
    rw [hpg.mem_iff]
    simp [groupOf, List.mem_filter]
  refine ⟨?_, ?_, ?_⟩
  · unfold colFirst
    constructor
    · intro hnone r hr hrt
      cases hw : f r with
      | none => rfl
      | some w =>
        exfalso
        have hwmem : w ∈ (groupOf t s).filterMap f :=
          List.mem_filterMap.mpr ⟨r, (hmem_g r).mpr ⟨hr, hrt⟩, hw⟩
        cases hfm : (groupOf t s).filterMap f with
        | nil => rw [hfm] at hwmem; cases hwmem
        | cons a tl => rw [hfm] at hnone; simp at hnone
    · intro hall
      cases hfm : (groupOf t s).filterMap f with
      | nil => rfl
      | cons a tl =>
        exfalso
        have hamem : a ∈ (groupOf t s).filterMap f := by
          rw [hfm]
          exact List.mem_cons_self a tl
        obtain ⟨r, hr, hfr⟩ := List.mem_filterMap.mp hamem
        rcases (hmem_g r).mp hr with ⟨hrrows, hrt⟩
        rw [hall r hrrows hrt] at hfr
        cases hfr
  · intro v hv
    obtain ⟨r, hr, hfr, hbound⟩ := head_filterMap_sorted f _ hsg v hv
    rcases (hmem_g r).mp hr with ⟨hrrows, hrt⟩
    refine ⟨r, hrrows, hrt, hfr, ?_⟩
    intro r2 hr2 ht2 hne2
    exact hbound r2 ((hmem_g r2).mpr ⟨hr2, ht2⟩) hne2
  · intro r hr hrt hfr huni
    apply head_filterMap_unique_max f _ hsg r ((hmem_g r).mpr ⟨hr, hrt⟩) hfr
    intro r2 hr2 hf2 hne2
    rcases (hmem_g r2).mp hr2 with ⟨h2rows, h2t⟩
    exact huni r2 h2rows h2t hf2 hne2

/-- The head of the group's trade_date column is the maximum trade_date of
the ticker's rows, for every date-descending arrangement s of the input.  -/
lemma lastDate_spec (t : String) (rows s : List MarketRow)
    (hperm : List.Perm s rows)
    (hsort : s.Pairwise (fun a b => b.trade_date ≤ a.trade_date))
    (hmem : t ∈ rows.map (fun r => r.ticker)) :
    ∃ d, ((groupOf t s).map (fun r => r.trade_date)).head? = some d ∧
      (∃ r ∈ rows, r.ticker = t ∧ r.trade_date = d) ∧
      ∀ r2 ∈ rows, r2.ticker = t → r2.trade_date ≤ d := by
  have hpg : List.Perm (groupOf t s) (groupOf t rows) := hperm.filter _
  have hsg : (groupOf t s).Pairwise (fun a b => b.trade_date ≤ a.trade_date) :=
    List.Pairwise.sublist (List.filter_sublist _) hsort
  have hmem_g : ∀ x, x ∈ groupOf t s ↔ (x ∈ rows ∧ x.ticker = t) := by
    intro x
    rw [hpg.mem_iff]
    simp [groupOf, List.mem_filter]
  obtain ⟨r0, hr0, hrt0⟩ := List.mem_map.mp hmem
  have hr0g : r0 ∈ groupOf t s := (hmem_g r0).mpr ⟨hr0, hrt0⟩
  cases hg : groupOf t s with
  | nil => rw [hg] at hr0g; cases hr0g
  | cons x g2 =>
    have hxg : x ∈ groupOf t s := by
      rw [hg]
      exact List.mem_cons_self x g2
    rcases (hmem_g x).mp hxg with ⟨hxrows, hxt⟩
    refine ⟨x.trade_date, rfl, ⟨x, hxrows, hxt, rfl⟩, ?_⟩
    intro r2 hr2 ht2
    have hr2g : r2 ∈ groupOf t s := (hmem_g r2).mpr ⟨hr2, ht2⟩
    rw [hg] at hr2g hsg
    rcases List.mem_cons.mp hr2g with rfl | hr2g
    · exact le_refl _
    · exact (List.pairwise_cons.mp hsg).1 r2 hr2g

/-- C1 counterexample: for AAPL rows at dates 2 and 1, the chronologically
latest row (date 2) has a null close, yet the aggregation emits
last_close = 5 taken from the older row, because the pandas first aggregation
takes the first non-null entry per column.  The claim that every last_* field
equals the field of the chronologically latest row is therefore false.  -/
theorem spec_C1_counterexample :
    faangLatest
        [⟨"AAPL", 2, none, none, none, none, none, none⟩,
         ⟨"AAPL", 1, some 5, none, none, none, none, none⟩] =
      [⟨"AAPL", some 2, some 5, none, none, none⟩] ∧
    (sortDateDesc
        [⟨"AAPL", 2, none, none, none, none, none, none⟩,
         ⟨"AAPL", 1, some 5, none, none, none, none, none⟩]).head? =
      some ⟨"AAPL", 2, none, none, none, none, none, none⟩ ∧
    some (5 : ℚ) ≠ (none : Option ℚ) :=
  ⟨by decide, by decide, by decide⟩

/-- C1 amended.  For every non-empty input and every date-descending
arrangement s of it -- hence for whatever arrangement the program's unstable
sort_values actually produces -- the aggregation emits exactly one output row
per distinct ticker (count, distinctness and membership), and every last_*
output field meets FieldSpec: it is null exactly when the column is all-null
in the ticker's group; any non-null value is the column's value at a group
row of maximal trade_date among the rows where the column is non-null; and
whenever that maximal-date non-null row is unique, the output equals its
value.  last_date is the maximum trade_date of the group.  The executable
aggregators faangLatest and compareSummary instantiate one such arrangement
and satisfy the same specification.  -/
theorem spec_C1_latest_per_group_amended (rows : List MarketRow)
    (hne : rows ≠ []) (s : List MarketRow) (hs : DateSortedPermOf s rows) :
    ((groupKeys s).map (fun k => dashSummaryOf k s)).length =
      (rows.map (fun r => r.ticker)).dedup.length ∧
    ((groupKeys s).map (fun k => compareSummaryOf k s)).length =
      (rows.map (fun r => r.ticker)).dedup.length ∧
    (((groupKeys s).map (fun k => dashSummaryOf k s)).map
      (fun o => o.ticker)).Nodup ∧
    (∀ t, t ∈ ((groupKeys s).map (fun k => dashSummaryOf k s)).map
        (fun o => o.ticker) ↔
      t ∈ rows.map (fun r => r.ticker)) ∧
    (∀ o ∈ (groupKeys s).map (fun k => dashSummaryOf k s),
      DashFieldsSpec rows o) ∧
    (∀ o ∈ (groupKeys s).map (fun k => compareSummaryOf k s),
      CompareFieldsSpec rows o) ∧
    DateSortedPermOf (sortDateDesc rows) rows ∧
    (∀ o ∈ faangLatest rows, DashFieldsSpec rows o) ∧
    (∀ o ∈ compareSummary rows, CompareFieldsSpec rows o) ∧
    (faangLatest rows).length = (rows.map (fun r => r.ticker)).dedup.length ∧
    ((faangLatest rows).map (fun o => o.ticker)).Nodup ∧
    (∀ t, t ∈ (faangLatest rows).map (fun o => o.ticker) ↔
      t ∈ rows.map (fun r => r.ticker)) := by
  obtain ⟨hperm, hsort⟩ := hs
  refine ⟨?_, ?_, ?_, ?_, ?_, ?_,
    ⟨sortDateDesc_perm rows, sortDateDesc_pairwise rows⟩, ?_, ?_, ?_, ?_, ?_⟩
  · rw [List.length_map]
    exact length_groupKeys_perm rows s hperm
  · rw [List.length_map]
    exact length_groupKeys_perm rows s hperm
  · rw [dash_map_ticker]
    exact nodup_groupKeys _
  · intro t
    rw [dash_map_ticker]
    exact mem_groupKeys_perm hperm
  · intro o ho
    obtain ⟨t, ht, rfl⟩ := List.mem_map.mp ho
    have hmem : t ∈ rows.map (fun r => r.ticker) := (mem_groupKeys_perm hperm).mp ht
    exact ⟨fieldSpec_colFirst (fun r => r.close) t rows s hperm hsort,
           fieldSpec_colFirst (fun r => r.daily_return) t rows s hperm hsort,
           fieldSpec_colFirst (fun r => r.cumulative_return) t rows s hperm hsort,
           fieldSpec_colFirst (fun r => r.rsi_14) t rows s hperm hsort,
           lastDate_spec t rows s hperm hsort hmem⟩
  · intro o ho
    obtain ⟨t, ht, rfl⟩ := List.mem_map.mp ho
    exact ⟨fieldSpec_colFirst (fun r => r.close) t rows s hperm hsort,
           fieldSpec_colFirst (fun r => r.cumulative_return) t rows s hperm hsort,
           fieldSpec_colFirst (fun r => r.rsi_14) t rows s hperm hsort,
           fieldSpec_colFirst (fun r => r.ma_20) t rows s hperm hsort,
           fieldSpec_colFirst (fun r => r.ma_50) t rows s hperm hsort⟩
  · intro o ho
    simp only [faangLatest] at ho
    obtain ⟨t, ht, rfl⟩ := List.mem_map.mp ho
    have hmem : t ∈ rows.map (fun r => r.ticker) :=
      (mem_groupKeys_perm (sortDateDesc_perm rows)).mp ht
    exact ⟨fieldSpec_colFirst (fun r => r.close) t rows _
             (sortDateDesc_perm rows) (sortDateDesc_pairwise rows),
           fieldSpec_colFirst (fun r => r.daily_return) t rows _
             (sortDateDesc_perm rows) (sortDateDesc_pairwise rows),
           fieldSpec_colFirst (fun r => r.cumulative_return) t rows _
             (sortDateDesc_perm rows) (sortDateDesc_pairwise rows),
           fieldSpec_colFirst (fun r => r.rsi_14) t rows _
             (sortDateDesc_perm rows) (sortDateDesc_pairwise rows),
           lastDate_spec t rows _ (sortDateDesc_perm rows)
             (sortDateDesc_pairwise rows) hmem⟩
  · intro o ho
    simp only [compareSummary] at ho
    obtain ⟨t, ht, rfl⟩ := List.mem_map.mp ho
    exact ⟨fieldSpec_colFirst (fun r => r.close) t rows _
             (sortDateDesc_perm rows) (sortDateDesc_pairwise rows),
           fieldSpec_colFirst (fun r => r.cumulative_return) t rows _
             (sortDateDesc_perm rows) (sortDateDesc_pairwise rows),
           fieldSpec_colFirst (fun r => r.rsi_14) t rows _
             (sortDateDesc_perm rows) (sortDateDesc_pairwise rows),
           fieldSpec_colFirst (fun r => r.ma_20) t rows _
             (sortDateDesc_perm rows) (sortDateDesc_pairwise rows),
           fieldSpec_colFirst (fun r => r.ma_50) t rows _
             (sortDateDesc_perm rows) (sortDateDesc_pairwise rows)⟩
  · have hl1 : (faangLatest rows).length =
        (groupKeys (sortDateDesc rows)).length := by
      unfold faangLatest
      rw [List.length_map]
    rw [hl1]
    exact length_groupKeys_perm rows (sortDateDesc rows) (sortDateDesc_perm rows)
  · rw [faangLatest_map_ticker]
    exact nodup_groupKeys _
  · intro t
    rw [faangLatest_map_ticker]
    exact mem_groupKeys_perm (sortDateDesc_perm rows)

/-- Witness for C1 amended on a one-row frame, with the frame itself as the
date-descending arrangement.  -/
theorem spec_C1_latest_per_group_amended_witness :
    ((groupKeys [⟨"AAPL", 1, some 3, none, none, none, none, none⟩]).map
        (fun k =>
          dashSummaryOf k
            [⟨"AAPL", 1, some 3, none, none, none, none, none⟩])).length =
      (([⟨"AAPL", 1, some 3, none, none, none, none, none⟩] :
          List MarketRow).map (fun r => r.ticker)).dedup.length :=
  (spec_C1_latest_per_group_amended
    [⟨"AAPL", 1, some 3, none, none, none, none, none⟩] (by decide)
    [⟨"AAPL", 1, some 3, none, none, none, none, none⟩]
    ⟨List.Perm.refl _, List.pairwise_singleton _ _⟩).1

/-- C8 counterexample: rows NFLX (date 2) then AAPL (date 1).  In the
date-descending sorted input NFLX appears first, but the output lists AAPL
first because pandas groupby sorts the group keys, so the output order is not
the order of first appearance.  -/
theorem spec_C8_counterexample :
    (faangLatest
        [⟨"NFLX", 2, none, none, none, none, none, none⟩,
         ⟨"AAPL", 1, none, none, none, none, none, none⟩]).map (fun o => o.ticker) =
      ["AAPL", "NFLX"] ∧
    firstAppearanceKeys
        [⟨"NFLX", 2, none, none, none, none, none, none⟩,
         ⟨"AAPL", 1, none, none, none, none, none, none⟩] = ["NFLX", "AAPL"] ∧
    (["AAPL", "NFLX"] : List String) ≠ ["NFLX", "AAPL"] :=
  ⟨by decide, by decide, by decide⟩

/-- C8 amended.  The output rows of both aggregations appear in strictly
ascending lexicographic ticker order (pandas groupby sorts its group keys),
not in order of first appearance in the sorted input; the set of output
tickers still equals the set of tickers appearing in the sorted input.  -/
theorem spec_C8_output_order_amended (rows : List MarketRow) (hne : rows ≠ []) :
    ((faangLatest rows).map (fun o => o.ticker)).Pairwise (fun a b => a < b) ∧
    ((compareSummary rows).map (fun o => o.ticker)).Pairwise (fun a b => a < b) ∧
    (∀ t, t ∈ (faangLatest rows).map (fun o => o.ticker) ↔
      t ∈ firstAppearanceKeys rows) := by
  refine ⟨?_, ?_, ?_⟩
  · rw [faangLatest_map_ticker]
    unfold groupKeys
    exact pairwise_sortStrAsc (nodup_dedupKeys _)
  · rw [compareSummary_map_ticker]
    unfold groupKeys
    exact pairwise_sortStrAsc (nodup_dedupKeys _)
  · intro t
    rw [faangLatest_map_ticker, mem_groupKeys]
    unfold firstAppearanceKeys
    rw [mem_dedupKeys]

/-- Witness for C8 amended on a two-ticker frame.  -/
theorem spec_C8_output_order_amended_witness :
    ((faangLatest
        [⟨"NFLX", 2, none, none, none, none, none, none⟩,
         ⟨"AAPL", 1, none, none, none, none, none, none⟩]).map
      (fun o => o.ticker)).Pairwise (fun a b => a < b) :=
  (spec_C8_output_order_amended
    [⟨"NFLX", 2, none, none, none, none, none, none⟩,
     ⟨"AAPL", 1, none, none, none, none, none, none⟩] (by decide)).1
